import Mathlib

/-!
Verification of the text-to-speech job pipeline of the audio_gen_backend
repository (src/main.py, src/utils.py, src/auth.py).

Strings from the Python source are modelled as `List Char`; Python string
splitting (`str.split` with a non-empty separator), stripping (`str.strip`)
and concatenation are embedded below.  The external speech synthesizer
(ElevenLabs HTTP backend) is abstracted as a function from attempt numbers to
responses, and the external audio concatenator (ffmpeg concat) as list
concatenation of the audio byte streams, matching the stream-copy contract.
-/

namespace AudioGen

/-- Python `s.split(sep)` for a non-empty separator `sep = a :: tl`, with
structural fuel (any `fuel ≥ s.length` gives the same answer): scan left to
right, cut at every non-overlapping occurrence of the separator. -/
def splitSepF (a : Char) (tl : List Char) : Nat → List Char → List (List Char)
  | 0, s => [s]
  | _ + 1, [] => [[]]
  | fuel + 1, c :: rest =>
    if c = a ∧ rest.take tl.length = tl then
      [] :: splitSepF a tl fuel (rest.drop tl.length)
    else
      List.modifyHead (fun seg => c :: seg) (splitSepF a tl fuel rest)

/-- Python `s.split(sep)` for the non-empty separator `a :: tl`; a string
with no occurrence yields the singleton list, and `"".split(sep) = [""]`. -/
def splitSep (a : Char) (tl : List Char) (s : List Char) : List (List Char) :=
  splitSepF a tl s.length s

/-- Joining a list of segments with a separator; inverse of `splitSep`. -/
def joinSep (sep : List Char) : List (List Char) → List Char
  | [] => []
  | [x] => x
  | x :: y :: xs => x ++ sep ++ joinSep sep (y :: xs)

/-- Python `s.strip()`: remove leading and trailing whitespace. -/
def trimCl (s : List Char) : List Char :=
  (((s.dropWhile Char.isWhitespace).reverse.dropWhile Char.isWhitespace)).reverse

theorem splitSepF_ne_nil (a : Char) (tl : List Char) :
    ∀ (fuel : Nat) (s : List Char), splitSepF a tl fuel s ≠ [] := by
  intro fuel
  induction fuel with
  | zero => intro s; simp [splitSepF]
  | succ fuel ih =>
    intro s
    cases s with
    | nil => simp [splitSepF]
    | cons c rest =>
      by_cases h : c = a ∧ rest.take tl.length = tl
      · simp [splitSepF, if_pos h]
      · simp only [splitSepF, if_neg h]
        cases hs : splitSepF a tl fuel rest with
        | nil => exact absurd hs (ih rest)
        | cons x xs => simp

theorem splitSep_ne_nil (a : Char) (tl : List Char) (s : List Char) :
    splitSep a tl s ≠ [] := splitSepF_ne_nil a tl s.length s

theorem joinSep_cons_cons (sep : List Char) (c : Char) (seg : List Char)
    (segs : List (List Char)) :
    joinSep sep ((c :: seg) :: segs) = c :: joinSep sep (seg :: segs) := by
  cases segs with
  | nil => simp [joinSep]
  | cons y ys => simp [joinSep]

theorem joinSep_splitSepF (a : Char) (tl : List Char) :
    ∀ (fuel : Nat) (s : List Char), s.length ≤ fuel →
      joinSep (a :: tl) (splitSepF a tl fuel s) = s := by
  intro fuel
  induction fuel with
  | zero => intro s _; rfl
  | succ fuel ih =>
    intro s hs
    cases s with
    | nil => rfl
    | cons c rest =>
      simp only [List.length_cons] at hs
      by_cases h : c = a ∧ rest.take tl.length = tl
      · simp only [splitSepF, if_pos h]
        obtain ⟨hc, htake⟩ := h
        cases hsp : splitSepF a tl fuel (rest.drop tl.length) with
        | nil => exact absurd hsp (splitSepF_ne_nil a tl fuel _)
        | cons x xs =>
          have hjoin : joinSep (a :: tl) ([] :: x :: xs)
              = (a :: tl) ++ joinSep (a :: tl) (x :: xs) := by simp [joinSep]
          have hdrop : (rest.drop tl.length).length ≤ fuel := by
            simp only [List.length_drop]
            omega
          rw [hjoin, ← hsp, ih _ hdrop, hc]
          have hsplit : rest = tl ++ rest.drop tl.length := by
            conv_lhs => rw [← List.take_append_drop tl.length rest]
            rw [htake]
          simp only [List.cons_append]
          rw [← hsplit]
      · simp only [splitSepF, if_neg h]
        cases hsp : splitSepF a tl fuel rest with
        | nil => exact absurd hsp (splitSepF_ne_nil a tl fuel rest)
        | cons x xs =>
          simp only [List.modifyHead]
          rw [joinSep_cons_cons, ← hsp, ih rest (by omega)]

/-- Splitting and re-joining with the same separator is the identity. -/
theorem joinSep_splitSep (a : Char) (tl : List Char) (s : List Char) :
    joinSep (a :: tl) (splitSep a tl s) = s :=
  joinSep_splitSepF a tl s.length s (Nat.le_refl _)

theorem trimCl_length_le (s : List Char) : (trimCl s).length ≤ s.length := by
  unfold trimCl
  have h1 := (List.dropWhile_sublist (l := s) Char.isWhitespace).length_le
  have h2 := (List.dropWhile_sublist
    (l := (s.dropWhile Char.isWhitespace).reverse) Char.isWhitespace).length_le
  simp only [List.length_reverse] at h2 ⊢
  omega

theorem dropWhile_dropWhile (p : α → Bool) (l : List α) :
    List.dropWhile p (List.dropWhile p l) = List.dropWhile p l := by
  induction l with
  | nil => simp
  | cons x xs ih =>
    by_cases hx : p x
    · simp [List.dropWhile_cons, hx, ih]
    · simp [List.dropWhile_cons, hx]

theorem dropWhile_append_nil (p : α → Bool) (s t : List α)
    (h : List.dropWhile p s = []) :
    List.dropWhile p (s ++ t) = List.dropWhile p t := by
  induction s with
  | nil => simp
  | cons x xs ih =>
    rw [List.dropWhile_cons] at h
    by_cases hx : p x
    · rw [if_pos hx] at h
      simp only [List.cons_append, List.dropWhile_cons, if_pos hx]
      exact ih h
    · rw [if_neg hx] at h
      exact absurd h (by simp)

theorem dropWhile_append_cons (p : α → Bool) (s t : List α) (d : α) (ds : List α)
    (h : List.dropWhile p s = d :: ds) (hd : p d = false) :
    List.dropWhile p (s ++ t) = d :: (ds ++ t) := by
  induction s with
  | nil =>
    simp only [List.dropWhile_nil] at h
    exact absurd h (by simp)
  | cons x xs ih =>
    rw [List.dropWhile_cons] at h
    by_cases hx : p x
    · rw [if_pos hx] at h
      simp only [List.cons_append, List.dropWhile_cons, if_pos hx]
      exact ih h
    · rw [if_neg hx] at h
      injection h with h1 h2
      subst h1
      subst h2
      simp only [List.cons_append, List.dropWhile_cons, if_neg hx]

/-- The result of a left `dropWhile` starts with an element violating `p`
(when non-empty); a prefix of such a list is unchanged by `dropWhile`. -/
theorem dropWhile_prefix_of_drop (p : α → Bool) (A B C : List α)
    (hA : List.dropWhile p A = A) (hBC : A = B ++ C) :
    List.dropWhile p B = B := by
  cases B with
  | nil => simp
  | cons b bs =>
    by_cases hb : p b
    · exfalso
      subst hBC
      simp only [List.cons_append, List.dropWhile_cons, if_pos hb] at hA
      have hle := (List.dropWhile_sublist (l := bs ++ C) p).length_le
      have hlen := congrArg List.length hA
      simp at hlen hle
      omega
    · simp [List.dropWhile_cons, hb]

theorem trimCl_idem (s : List Char) : trimCl (trimCl s) = trimCl s := by
  set p := Char.isWhitespace with hp
  set A := s.dropWhile p with hA
  have hAdrop : List.dropWhile p A = A := dropWhile_dropWhile p s
  set B := (A.reverse.dropWhile p).reverse with hB
  have hBrev : B.reverse = A.reverse.dropWhile p := by rw [hB, List.reverse_reverse]
  -- B is a prefix of A
  have hpre : ∃ C, A = B ++ C := by
    have hsub : A.reverse.dropWhile p <:+ A.reverse := (List.dropWhile_suffix p)
    obtain ⟨t, ht⟩ := hsub
    refine ⟨t.reverse, ?_⟩
    have := congrArg List.reverse ht
    simp only [List.reverse_append, List.reverse_reverse] at this
    rw [← this, hB]
  obtain ⟨C, hC⟩ := hpre
  have hBdrop : List.dropWhile p B = B := dropWhile_prefix_of_drop p A B C hAdrop hC
  show (((B.dropWhile p).reverse.dropWhile p)).reverse = B
  rw [hBdrop, hBrev, dropWhile_dropWhile]

/-- Appending trailing whitespace does not change the stripped string. -/
theorem trimCl_append_ws (s : List Char) (c : Char) (hc : c.isWhitespace = true) :
    trimCl (s ++ [c]) = trimCl s := by
  unfold trimCl
  cases hd : List.dropWhile Char.isWhitespace s with
  | nil =>
    rw [dropWhile_append_nil _ _ _ hd]
    simp [List.dropWhile_cons, hc]
  | cons d ds =>
    have hdnot : Char.isWhitespace d = false := by
      have h2 := dropWhile_dropWhile Char.isWhitespace s
      rw [hd, List.dropWhile_cons] at h2
      by_cases hpd : Char.isWhitespace d
      · rw [if_pos hpd] at h2
        have hlen := congrArg List.length h2
        have hle := (List.dropWhile_sublist (l := ds) Char.isWhitespace).length_le
        simp at hlen
        omega
      · simpa using hpd
    rw [dropWhile_append_cons _ _ _ _ _ hd hdnot]
    simp [List.reverse_cons, List.reverse_append, List.dropWhile_cons, hc]

/-!
The chunker, `split_text` of src/main.py (lines 184-209).  The Python loop
state is the pair `(chunks, current)`; the inner sentence loop state is
`(chunks, temp)`.  Python string truthiness of `x.strip()` is
`trimCl x ≠ []`.
-/

/-- Python `if x.strip(): chunks.append(x.strip())` (src/main.py lines
191-192, 202-203 and 207-208): append the stripped string when truthy. -/
def pushChunk (chunks : List (List Char)) (x : List Char) : List (List Char) :=
  if trimCl x = [] then chunks else chunks ++ [trimCl x]

/-- One iteration of the inner sentence loop of `split_text`
(`for s in sentences: ...`, src/main.py lines 196-201); note the `else`
branch appends `temp.strip()` unconditionally (line 200). -/
def sentStep (max_length : Nat) (acc : List (List Char) × List Char)
    (s : List Char) : List (List Char) × List Char :=
  if acc.2.length + s.length + 2 ≤ max_length then
    (acc.1, acc.2 ++ s ++ ['.', ' '])
  else
    (acc.1 ++ [trimCl acc.2], s ++ ['.', ' '])

/-- One iteration of the paragraph loop of `split_text`
(`for para in paragraphs: ...`, src/main.py lines 187-206); the append of
`para.strip()` on line 205 is unconditional. -/
def paraStep (max_length : Nat) (acc : List (List Char) × List Char)
    (para : List Char) : List (List Char) × List Char :=
  if acc.2.length + para.length + 2 ≤ max_length then
    (acc.1, acc.2 ++ para ++ ['\n', '\n'])
  else
    let chunks1 := pushChunk acc.1 acc.2
    if max_length < para.length then
      let st := (splitSep '.' [' '] para).foldl (sentStep max_length) (chunks1, [])
      (pushChunk st.1 st.2, [])
    else
      (chunks1 ++ [trimCl para], [])

/-- The chunker `split_text(text, max_length=4500)` of src/main.py
(lines 184-209): split on blank lines, greedily pack paragraphs, fall back
to splitting an over-long paragraph on `". "`. -/
def split_text (text : List Char) (max_length : Nat := 4500) : List (List Char) :=
  let st := (splitSep '\n' ['\n'] text).foldl (paraStep max_length) ([], [])
  pushChunk st.1 st.2

/-!
The progress tracker: the module-level dictionary `progress_dict` of
src/main.py (line 57), holding `{"done": _, "total": _}` per job id,
modelled as an association list with Python dict semantics.
-/

/-- One `progress_dict` entry `{"done": d, "total": t}`. -/
structure Progress where
  done : Nat
  total : Nat
deriving DecidableEq, Repr

abbrev ProgressMap := List (String × Progress)

/-- Python `progress_dict.get(k)` / `k in progress_dict`. -/
def pdLookup : ProgressMap → String → Option Progress
  | [], _ => none
  | (k2, v) :: rest, k => if k2 = k then some v else pdLookup rest k

/-- Python `progress_dict[k] = v` (src/main.py line 308). -/
def pdSet : ProgressMap → String → Progress → ProgressMap
  | [], k, v => [(k, v)]
  | (k2, v2) :: rest, k, v =>
    if k2 = k then (k, v) :: rest else (k2, v2) :: pdSet rest k v

/-- Python `if custom_id in progress_dict: progress_dict[custom_id]["done"] += 1`
(src/main.py lines 243-244); a no-op on an absent key. -/
def pdInc : ProgressMap → String → ProgressMap
  | [], _ => []
  | (k2, v) :: rest, k =>
    if k2 = k then (k2, ⟨v.done + 1, v.total⟩) :: rest else (k2, v) :: pdInc rest k

/-- Python `progress_dict[custom_id]["done"] = progress_dict[custom_id]["total"]`
(src/main.py line 326); a no-op on an absent key. -/
def pdFinish : ProgressMap → String → ProgressMap
  | [], _ => []
  | (k2, v) :: rest, k =>
    if k2 = k then (k2, ⟨v.total, v.total⟩) :: rest else (k2, v) :: pdFinish rest k

/-!
IEEE-754 binary64 model for the percent computation of `get_progress`
(src/main.py line 344): Python evaluates `(done / total) * 100` in binary64
and `int` truncates toward zero.  Only normal positive values are reached by
these magnitudes, so overflow and subnormals are not modelled.
-/

/-- Binary logarithm with explicit fuel, so that the kernel can evaluate it
structurally; `log2fuel fuel n = Nat.log 2 n` whenever `n ≤ fuel`. -/
def log2fuel : Nat → Nat → Nat
  | 0, _ => 0
  | fuel + 1, n => if 2 ≤ n then log2fuel fuel (n / 2) + 1 else 0

/-- The binary logarithm `floor(log2 n)` (0 at 0). -/
def nlog2 (n : Nat) : Nat := log2fuel n n

/-- Round the positive rational `a / b` to the nearest IEEE-754 binary64
value (round-to-nearest, ties-to-even), returned as `(m, e)` with value
`m * 2 ^ e` and `2 ^ 52 ≤ m < 2 ^ 53`; zero is `(0, 0)`. -/
def floatOfRat (a b : Nat) : Nat × Int :=
  if a = 0 ∨ b = 0 then (0, 0)
  else
    let S := 54 + nlog2 b
    let q := a * 2 ^ S / b
    let t := nlog2 q - 52
    let d := b * 2 ^ t
    let m0 := a * 2 ^ S / d
    let r := a * 2 ^ S % d
    let m1 := if d < 2 * r ∨ (2 * r = d ∧ m0 % 2 = 1) then m0 + 1 else m0
    if m1 = 2 ^ 53 then (2 ^ 52, (t : Int) + 1 - S) else (m1, (t : Int) - S)

/-- Binary64 multiplication of a float by the exactly representable natural
number `c`: round the exact product. -/
def floatMulNat (x : Nat × Int) (c : Nat) : Nat × Int :=
  if 0 ≤ x.2 then floatOfRat (c * x.1 * 2 ^ x.2.toNat) 1
  else floatOfRat (c * x.1) (2 ^ (-x.2).toNat)

/-- Python `int(..)` on a non-negative binary64 value: truncation. -/
def truncFloat (x : Nat × Int) : Nat :=
  if 0 ≤ x.2 then x.1 * 2 ^ x.2.toNat else x.1 / 2 ^ (-x.2).toNat

/-- Python `int((data["done"] / data["total"]) * 100) if data["total"] else 100`
(src/main.py line 344), with `/` and `*` in IEEE-754 binary64. -/
def pyPercent (done total : Nat) : Nat :=
  if total = 0 then 100
  else truncFloat (floatMulNat (floatOfRat done total) 100)

inductive ProgressError where
  | notFound
deriving DecidableEq

/-- The `GET /progress/{custom_id}` endpoint `get_progress`
(src/main.py lines 339-345): 404 on an unknown job id, otherwise done,
total and the truncated float percent. -/
def get_progress (pd : ProgressMap) (custom_id : String) :
    Except ProgressError (Nat × Nat × Nat) :=
  match pdLookup pd custom_id with
  | none => Except.error ProgressError.notFound
  | some p => Except.ok (p.done, p.total, pyPercent p.done p.total)

/-!
The synthesis client `tts_request` (src/main.py lines 212-251).  The remote
ElevenLabs call is abstracted by `backend : Nat → Attempt`, giving for every
attempt number the backend's behavior: an HTTP response carrying a status,
the audio bytes and an error body, or a raised transport/file exception.
Writing the part file is modelled by carrying the audio bytes in the result
instead of the file path.  `asyncio.sleep(2 * attempt)` calls are recorded
in `sleeps`; executed loop iterations are counted in `attempts`.
-/

/-- Behavior of one backend attempt: an HTTP response (status, audio bytes,
error body used when the status is not 200), or a raised exception. -/
inductive Attempt where
  | resp (status : Nat) (data : List Nat) (err : String)
  | exn (msg : String)

/-- The `HTTPException(500, f"Chunk {chunk_id} failed: {cause}")` surfaced
when the retry budget is exhausted (src/main.py line 250).  Both final
failure paths pass through the `except` clause: a final non-200 response
first raises `HTTPException(500, f"ElevenLabs error: {err}")` (line 235),
which the `except` catches and re-wraps with `str(e) = "500: ..."`. -/
inductive TtsError where
  | chunkFailed (chunk_id : Nat) (cause : String)
deriving DecidableEq

/-- Trace of one `tts_request` call: attempts executed, backoff sleeps
performed, the resulting progress dictionary, and the outcome (`none` is
Python's implicit `None` fall-through, unreachable for `retries ≥ 1`). -/
structure TtsRun where
  attempts : Nat
  sleeps : List Nat
  pd : ProgressMap
  result : Option (Except TtsError (Nat × List Nat))

/-- The retry loop `for attempt in range(1, retries + 1)` of `tts_request`
(src/main.py lines 227-251), with `fuel` the number of loop iterations left. -/
def tts_go (backend : Nat → Attempt) (chunk_id : Nat) (custom_id : String)
    (retries : Nat) : Nat → Nat → ProgressMap → TtsRun
  | _, 0, pd => ⟨0, [], pd, none⟩
  | attempt, fuel + 1, pd =>
    match backend attempt with
    | .resp status data err =>
      if status ≠ 200 then
        if attempt = retries then
          ⟨1, [], pd,
            some (Except.error
              (TtsError.chunkFailed chunk_id ("500: ElevenLabs error: " ++ err)))⟩
        else
          let r := tts_go backend chunk_id custom_id retries (attempt + 1) fuel pd
          ⟨r.attempts + 1, 2 * attempt :: r.sleeps, r.pd, r.result⟩
      else
        ⟨1, [], pdInc pd custom_id, some (Except.ok (chunk_id, data))⟩
    | .exn msg =>
      if attempt = retries then
        ⟨1, [], pd, some (Except.error (TtsError.chunkFailed chunk_id msg))⟩
      else
        let r := tts_go backend chunk_id custom_id retries (attempt + 1) fuel pd
        ⟨r.attempts + 1, 2 * attempt :: r.sleeps, r.pd, r.result⟩

/-- `tts_request(session, text, chunk_id, custom_id, voice_id, retries=3)`
(src/main.py line 212); the posted text and voice id only parameterize the
abstracted backend. -/
def tts_request (backend : Nat → Attempt) (chunk_id : Nat) (custom_id : String)
    (pd : ProgressMap) (retries : Nat := 3) : TtsRun :=
  tts_go backend chunk_id custom_id retries 1 retries pd

/-!
The merge step and the dispatcher `generate_audio`
(src/main.py lines 253-283 and 286-337).
-/

/-- `merge_audios_ffmpeg(files, output_file, custom_id)` (src/main.py lines
253-283): ffmpeg `concat` with stream copy concatenates the listed files'
audio byte streams in list order; files are modelled by their contents. -/
def merge_audios_ffmpeg (files : List (List Nat)) : List Nat := files.flatten

instance decRelFstLe : DecidableRel (fun a b : Nat × List Nat => a.1 ≤ b.1) :=
  fun a b => Nat.decLe a.1 b.1

/-- Python `sorted(results, key=lambda t: t[0])` (src/main.py line 320),
a stable sort on the chunk id. -/
def results_sorted (results : List (Nat × List Nat)) : List (Nat × List Nat) :=
  List.insertionSort (fun a b => a.1 ≤ b.1) results

/-- Lines 320-324 of src/main.py: sort the gathered `(chunk_id, audio)`
results by chunk id and merge the audio streams in that order. -/
def merged_artifact (results : List (Nat × List Nat)) : List Nat :=
  merge_audios_ffmpeg ((results_sorted results).map Prod.snd)

/-- Job-level error: HTTP 400 "Text file is empty" (src/main.py line 304)
or a chunk synthesis failure propagated by `asyncio.gather`. -/
inductive GenError where
  | emptyInput
  | synthesis (e : TtsError)
deriving DecidableEq

/-- Trace of processing the chunk list: final progress dictionary, the
per-chunk outcomes in chunk order, and the total backend attempts made. -/
structure ChunksRun where
  pd : ProgressMap
  results : List (Except TtsError (Nat × List Nat))
  attempts : Nat

/-- The fan-out `tasks = [process_chunk(i, chunk) ...]; await asyncio.gather`
(src/main.py lines 313-318), each task calling `tts_request` with chunk id
`i + 1`.  Tasks are modelled in chunk order; the per-job and global
admission order does not affect the per-chunk outcomes, which depend only
on `backend i`. -/
def runChunks (backend : Nat → Nat → Attempt) (custom_id : String) :
    Nat → List (List Char) → ProgressMap → ChunksRun
  | _, [], pd => ⟨pd, [], 0⟩
  | i, _ :: rest, pd =>
    let r := tts_request (backend i) (i + 1) custom_id pd
    let res := match r.result with
      | some x => x
      | none => Except.error (TtsError.chunkFailed (i + 1) "")
    let rest2 := runChunks backend custom_id (i + 1) rest r.pd
    ⟨rest2.pd, res :: rest2.results, r.attempts + rest2.attempts⟩

/-- First failure among the gathered results; `asyncio.gather` propagates
the first raised exception (src/main.py line 318). -/
def firstError : List (Except TtsError (Nat × List Nat)) → Option TtsError
  | [] => none
  | Except.error e :: _ => some e
  | Except.ok _ :: rest => firstError rest

def collectOks : List (Except TtsError (Nat × List Nat)) → List (Nat × List Nat)
  | [] => []
  | Except.error _ :: rest => collectOks rest
  | Except.ok x :: rest => x :: collectOks rest

/-- Trace of one `generate_audio` job: the returned artifact or error, the
final progress dictionary, total backend attempts, and how many times the
merge step ran. -/
structure GenRun where
  result : Except GenError (List Nat)
  pd : ProgressMap
  synthAttempts : Nat
  mergeCalls : Nat

/-- The `POST /generate-audio/` endpoint `generate_audio` (src/main.py lines
286-337): strip the uploaded text, reject empty input, chunk, register the
progress entry, fan out synthesis tasks, and on full success merge in chunk
id order and set `done = total`.  A chunk failure propagates out of
`asyncio.gather`, so the merge is never reached and no artifact is produced. -/
def generate_audio (backend : Nat → Nat → Attempt) (raw : List Char)
    (custom_id : String) (pd : ProgressMap) : GenRun :=
  let text := trimCl raw
  if text = [] then ⟨Except.error GenError.emptyInput, pd, 0, 0⟩
  else
    let chunks := split_text text
    let pd1 := pdSet pd custom_id ⟨0, chunks.length⟩
    let rc := runChunks backend custom_id 0 chunks pd1
    match firstError rc.results with
    | some e => ⟨Except.error (GenError.synthesis e), rc.pd, rc.attempts, 0⟩
    | none =>
      ⟨Except.ok (merged_artifact (collectOks rc.results)),
        pdFinish rc.pd custom_id, rc.attempts, 1⟩

/-!
Concurrency governor: `global_semaphore = asyncio.Semaphore(15)`
(src/main.py line 61) is acquired per attempt around the backend call
(line 229), and `local_semaphore = asyncio.Semaphore(5)` (line 310), one
per job, is held around the entire `tts_request` call (line 314).  The
interleaving of the cooperative scheduler is modelled by a small-step
transition system over the phases of all synthesis tasks of all jobs;
`asyncio.Semaphore(n).acquire` is the guard `holders < n`, and the
`async with` blocks guarantee release on every exit path, success or
raised exception.
-/

/-- Phase of one synthesis task: not yet started; inside
`async with local_semaphore` but not holding the global slot (this covers
backoff sleeps between attempts on the exception path); inside
`async with global_semaphore` performing the backend call; or returned
(both slots released). -/
inductive Phase where
  | pending
  | localHeld
  | globalHeld
  | finished
deriving DecidableEq

/-- One synthesis task, tagged with the job it belongs to. -/
structure STask where
  job : Nat
  phase : Phase
deriving DecidableEq

/-- Number of backend calls in flight process-wide (holders of
`global_semaphore`). -/
def inFlight (s : List STask) : Nat :=
  s.countP (fun t => t.phase == Phase.globalHeld)

/-- Holders of job `j`'s `local_semaphore`. -/
def jobAdmitted (s : List STask) (j : Nat) : Nat :=
  s.countP (fun t =>
    t.job == j && (t.phase == Phase.localHeld || t.phase == Phase.globalHeld))

/-- Backend calls in flight belonging to job `j`. -/
def jobInFlight (s : List STask) (j : Nat) : Nat :=
  s.countP (fun t => t.job == j && t.phase == Phase.globalHeld)

/-- Interleaved execution steps of the task pool.  Acquire steps are guarded
by the semaphore counters (`asyncio.Semaphore` blocks otherwise); release
is paired with every exit path of the `async with` blocks: a non-final
failed attempt releases only the global slot and retries, a success or a
surfaced `HTTPException` leaves `tts_request`, releasing everything held. -/
inductive Step : List STask → List STask → Prop where
  | acquireLocal (l r : List STask) (j : Nat) :
      jobAdmitted (l ++ ⟨j, Phase.pending⟩ :: r) j < 5 →
      Step (l ++ ⟨j, Phase.pending⟩ :: r) (l ++ ⟨j, Phase.localHeld⟩ :: r)
  | acquireGlobal (l r : List STask) (j : Nat) :
      inFlight (l ++ ⟨j, Phase.localHeld⟩ :: r) < 15 →
      Step (l ++ ⟨j, Phase.localHeld⟩ :: r) (l ++ ⟨j, Phase.globalHeld⟩ :: r)
  | retryRelease (l r : List STask) (j : Nat) :
      Step (l ++ ⟨j, Phase.globalHeld⟩ :: r) (l ++ ⟨j, Phase.localHeld⟩ :: r)
  | finishFromCall (l r : List STask) (j : Nat) :
      Step (l ++ ⟨j, Phase.globalHeld⟩ :: r) (l ++ ⟨j, Phase.finished⟩ :: r)
  | finishFromLocal (l r : List STask) (j : Nat) :
      Step (l ++ ⟨j, Phase.localHeld⟩ :: r) (l ++ ⟨j, Phase.finished⟩ :: r)

/-- States reachable from `init` by interleaved task steps. -/
inductive Reachable (init : List STask) : List STask → Prop where
  | refl : Reachable init init
  | step {s s2 : List STask} : Reachable init s → Step s s2 → Reachable init s2

/-!
Theorems.
-/

/-- The gathered results of a fully successful job with `n` chunks, in
completion order equal to chunk order: chunk `i` yields `(i + 1, audio i)`
(src/main.py line 315 passes `i + 1` as the chunk id). -/
def canonicalResults (n : Nat) (audio : Nat → List Nat) : List (Nat × List Nat) :=
  (List.range n).map (fun i => (i + 1, audio i))

instance : IsTotal (Nat × List Nat) (fun a b => a.1 ≤ b.1) :=
  ⟨fun a b => Nat.le_total a.1 b.1⟩

instance : IsTrans (Nat × List Nat) (fun a b => a.1 ≤ b.1) :=
  ⟨fun _ _ _ h1 h2 => Nat.le_trans h1 h2⟩

instance : IsAntisymm (Nat × List Nat) (fun a b => a.1 < b.1) :=
  ⟨fun a _ h h2 => absurd (Nat.lt_trans h h2) (Nat.lt_irrefl a.1)⟩

/-- C1: for a job whose chunks all synthesize successfully, whatever order
the synthesis tasks complete in (any permutation of the canonical results),
the merged artifact is the concatenation of the per-chunk audio in ascending
original chunk index. -/
theorem merge_order_preserved (n : Nat) (audio : Nat → List Nat)
    (results : List (Nat × List Nat))
    (h : results.Perm (canonicalResults n audio)) :
    merged_artifact results = ((List.range n).map audio).flatten := by
  have hperm : (results_sorted results).Perm (canonicalResults n audio) :=
    (List.perm_insertionSort _ results).trans h
  have hsorted : List.Sorted (fun a b : Nat × List Nat => a.1 ≤ b.1)
      (results_sorted results) :=
    List.sorted_insertionSort _ results
  have hkeysL : (canonicalResults n audio).map Prod.fst
      = (List.range n).map (fun i => i + 1) := by
    simp [canonicalResults, List.map_map, Function.comp]
  have hnodupL : ((canonicalResults n audio).map Prod.fst).Nodup := by
    rw [hkeysL]
    exact (List.nodup_range n).map (fun a b hab => by omega)
  have hnodupM : ((results_sorted results).map Prod.fst).Nodup :=
    ((hperm.map Prod.fst).nodup_iff).mpr hnodupL
  have hltM : List.Sorted (fun a b : Nat × List Nat => a.1 < b.1)
      (results_sorted results) := by
    have hne : List.Pairwise (fun a b : Nat × List Nat => a.1 ≠ b.1)
        (results_sorted results) := List.pairwise_map.mp hnodupM
    exact List.Pairwise.imp (fun hab => Nat.lt_of_le_of_ne hab.1 hab.2)
      (List.Pairwise.and hsorted hne)
  have hltL : List.Sorted (fun a b : Nat × List Nat => a.1 < b.1)
      (canonicalResults n audio) := by
    unfold canonicalResults
    refine List.pairwise_map.mpr ?_
    exact List.Pairwise.imp (fun hab => Nat.succ_lt_succ hab) (List.pairwise_lt_range n)
  have heq : results_sorted results = canonicalResults n audio :=
    List.eq_of_perm_of_sorted hperm hltM hltL
  unfold merged_artifact merge_audios_ffmpeg
  rw [heq]
  unfold canonicalResults
  rw [List.map_map]
  have hcomp : Prod.snd ∘ (fun i : Nat => (i + 1, audio i)) = audio := rfl
  rw [hcomp]

/-- Witness for C1 at the spec's example: chunks `c0, c1, c2` completing in
order `c2, c0, c1` still merge as `c0, c1, c2`. -/
theorem merge_order_preserved_witness :
    ([(3, [2]), (1, [0]), (2, [1])] : List (Nat × List Nat)).Perm
        (canonicalResults 3 (fun i => [i]))
      ∧ merged_artifact [(3, [2]), (1, [0]), (2, [1])]
          = ((List.range 3).map (fun i => [i])).flatten :=
  ⟨by decide,
    merge_order_preserved 3 (fun i => [i]) [(3, [2]), (1, [0]), (2, [1])] (by decide)⟩

/-- An attempt that does not succeed: a non-200 response or a raised
exception (src/main.py lines 231 and 247). -/
def ttsFails : Attempt → Bool
  | Attempt.resp status _ _ => status != 200
  | Attempt.exn _ => true

theorem tts_step_fail (backend : Nat → Attempt) (chunk_id : Nat) (cid : String)
    (retries attempt fuel : Nat) (pd : ProgressMap)
    (hne : attempt ≠ retries) (hf : ttsFails (backend attempt) = true) :
    tts_go backend chunk_id cid retries attempt (fuel + 1) pd
      = ⟨(tts_go backend chunk_id cid retries (attempt + 1) fuel pd).attempts + 1,
          2 * attempt :: (tts_go backend chunk_id cid retries (attempt + 1) fuel pd).sleeps,
          (tts_go backend chunk_id cid retries (attempt + 1) fuel pd).pd,
          (tts_go backend chunk_id cid retries (attempt + 1) fuel pd).result⟩ := by
  cases hb : backend attempt with
  | resp s d e =>
    rw [hb] at hf
    simp only [ttsFails] at hf
    have hs : s ≠ 200 := by simpa using hf
    simp [tts_go, hb, hs, hne]
  | exn m => simp [tts_go, hb, hne]

theorem tts_last_fail (backend : Nat → Attempt) (chunk_id : Nat) (cid : String)
    (retries fuel : Nat) (pd : ProgressMap)
    (hf : ttsFails (backend retries) = true) :
    ∃ cause, tts_go backend chunk_id cid retries retries (fuel + 1) pd
      = ⟨1, [], pd, some (Except.error (TtsError.chunkFailed chunk_id cause))⟩ := by
  cases hb : backend retries with
  | resp s d e =>
    rw [hb] at hf
    simp only [ttsFails] at hf
    have hs : s ≠ 200 := by simpa using hf
    exact ⟨"500: ElevenLabs error: " ++ e, by simp [tts_go, hb, hs]⟩
  | exn m => exact ⟨m, by simp [tts_go, hb]⟩

theorem tts_step_ok (backend : Nat → Attempt) (chunk_id : Nat) (cid : String)
    (retries attempt fuel : Nat) (pd : ProgressMap) (data : List Nat) (err : String)
    (hb : backend attempt = Attempt.resp 200 data err) :
    tts_go backend chunk_id cid retries attempt (fuel + 1) pd
      = ⟨1, [], pdInc pd cid, some (Except.ok (chunk_id, data))⟩ := by
  simp [tts_go, hb]

/-- C4: with the default retry budget of 3, a call whose every attempt fails
performs exactly 3 attempts with strictly increasing backoff delays
(2 then 4 seconds) and surfaces the error naming the failing chunk; a call
failing twice and succeeding on the third attempt returns the success result
after exactly 3 attempts, with no further attempt. -/
theorem retry_policy (backend backend2 : Nat → Attempt) (chunk_id : Nat)
    (custom_id : String) (pd : ProgressMap) (data : List Nat) (err3 : String)
    (hfail : ∀ a, ttsFails (backend a) = true)
    (h1 : ttsFails (backend2 1) = true) (h2 : ttsFails (backend2 2) = true)
    (h3 : backend2 3 = Attempt.resp 200 data err3) :
    ((tts_request backend chunk_id custom_id pd).attempts = 3
      ∧ (tts_request backend chunk_id custom_id pd).sleeps = [2, 4]
      ∧ List.Chain' (fun a b => a < b) (tts_request backend chunk_id custom_id pd).sleeps
      ∧ ∃ cause, (tts_request backend chunk_id custom_id pd).result
          = some (Except.error (TtsError.chunkFailed chunk_id cause)))
    ∧ (tts_request backend2 chunk_id custom_id pd).attempts = 3
    ∧ (tts_request backend2 chunk_id custom_id pd).sleeps = [2, 4]
    ∧ (tts_request backend2 chunk_id custom_id pd).result
        = some (Except.ok (chunk_id, data)) := by
  obtain ⟨cause, hlast⟩ := tts_last_fail backend chunk_id custom_id 3 0 pd (hfail 3)
  have hgo2 : tts_go backend chunk_id custom_id 3 2 2 pd
      = ⟨2, [4], pd, some (Except.error (TtsError.chunkFailed chunk_id cause))⟩ := by
    have hs := tts_step_fail backend chunk_id custom_id 3 2 1 pd (by omega) (hfail 2)
    rw [hs, hlast]
  have hgo1 : tts_go backend chunk_id custom_id 3 1 3 pd
      = ⟨3, [2, 4], pd, some (Except.error (TtsError.chunkFailed chunk_id cause))⟩ := by
    have hs := tts_step_fail backend chunk_id custom_id 3 1 2 pd (by omega) (hfail 1)
    rw [hs, hgo2]
  have hok : tts_go backend2 chunk_id custom_id 3 3 1 pd
      = ⟨1, [], pdInc pd custom_id, some (Except.ok (chunk_id, data))⟩ :=
    tts_step_ok backend2 chunk_id custom_id 3 3 0 pd data err3 h3
  have hgo2b : tts_go backend2 chunk_id custom_id 3 2 2 pd
      = ⟨2, [4], pdInc pd custom_id, some (Except.ok (chunk_id, data))⟩ := by
    have hs := tts_step_fail backend2 chunk_id custom_id 3 2 1 pd (by omega) h2
    rw [hs, hok]
  have hgo1b : tts_go backend2 chunk_id custom_id 3 1 3 pd
      = ⟨3, [2, 4], pdInc pd custom_id, some (Except.ok (chunk_id, data))⟩ := by
    have hs := tts_step_fail backend2 chunk_id custom_id 3 1 2 pd (by omega) h1
    rw [hs, hgo2b]
  refine ⟨⟨?_, ?_, ?_, ⟨cause, ?_⟩⟩, ?_, ?_, ?_⟩ <;>
    simp [tts_request, hgo1, hgo1b]

/-- Witness for C4: an always-raising backend, and a backend raising twice
then returning a 200 response. -/
theorem retry_policy_witness :
    ((∀ a, ttsFails ((fun _ : Nat => Attempt.exn "boom") a) = true)
      ∧ ttsFails ((fun a : Nat => if a ≤ 2 then Attempt.exn "boom"
          else Attempt.resp 200 [7] "") 1) = true
      ∧ ttsFails ((fun a : Nat => if a ≤ 2 then Attempt.exn "boom"
          else Attempt.resp 200 [7] "") 2) = true
      ∧ (fun a : Nat => if a ≤ 2 then Attempt.exn "boom"
          else Attempt.resp 200 [7] "") 3 = Attempt.resp 200 [7] "")
    ∧ (tts_request (fun _ : Nat => Attempt.exn "boom") 4 "job" []).attempts = 3
    ∧ (tts_request (fun a : Nat => if a ≤ 2 then Attempt.exn "boom"
        else Attempt.resp 200 [7] "") 4 "job" []).result
      = some (Except.ok (4, [7])) := by
  refine ⟨⟨fun a => rfl, rfl, rfl, rfl⟩, ?_, ?_⟩
  · exact ((retry_policy (fun _ : Nat => Attempt.exn "boom")
      (fun a : Nat => if a ≤ 2 then Attempt.exn "boom" else Attempt.resp 200 [7] "")
      4 "job" [] [7] "" (fun a => rfl) rfl rfl rfl).1).1
  · exact (retry_policy (fun _ : Nat => Attempt.exn "boom")
      (fun a : Nat => if a ≤ 2 then Attempt.exn "boom" else Attempt.resp 200 [7] "")
      4 "job" [] [7] "" (fun a => rfl) rfl rfl rfl).2.2.2

/-- C5: a document whose text is empty or whitespace-only is rejected with
the empty-input error before chunking, with zero synthesis attempts, the
merge never invoked, and the progress dictionary left unchanged (no entry
created for the job). -/
theorem empty_input_rejected (backend : Nat → Nat → Attempt) (raw : List Char)
    (custom_id : String) (pd : ProgressMap) (h : trimCl raw = []) :
    generate_audio backend raw custom_id pd
      = ⟨Except.error GenError.emptyInput, pd, 0, 0⟩ := by
  simp [generate_audio, h]

/-- Witness for C5 on a whitespace-only upload. -/
theorem empty_input_rejected_witness :
    generate_audio (fun _ _ => Attempt.exn "never") "  ".data "job" []
      = ⟨Except.error GenError.emptyInput, [], 0, 0⟩ :=
  empty_input_rejected (fun _ _ => Attempt.exn "never") "  ".data "job" [] (by decide)

set_option maxRecDepth 20000 in
/-- Counterexample to C7: at `done = 29, total = 100` the endpoint computes
`int((29 / 100) * 100)` in binary64, obtaining 28, while the exact integer
floor of `100 * 29 / 100` is 29. -/
theorem percent_not_exact_floor :
    get_progress [("job", ⟨29, 100⟩)] "job" = Except.ok (29, 100, 28)
      ∧ 100 * 29 / 100 = 29 ∧ (28 : Nat) ≠ 29 :=
  ⟨by rfl, by norm_num, by decide⟩

theorem log2fuel_eq_log (fuel : Nat) :
    ∀ n : Nat, n ≤ fuel → log2fuel fuel n = Nat.log 2 n := by
  induction fuel with
  | zero =>
    intro n hn
    have h0 : n = 0 := by omega
    subst h0
    simp [log2fuel]
  | succ fuel ih =>
    intro n hn
    by_cases h2 : 2 ≤ n
    · have hdiv : n / 2 ≤ fuel := by omega
      simp only [log2fuel, if_pos h2]
      rw [ih (n / 2) hdiv, ← Nat.log_of_one_lt_of_le (by norm_num) h2]
    · simp only [log2fuel, if_neg h2]
      rw [Nat.log_of_lt (by omega)]

theorem nlog2_eq_log (n : Nat) : nlog2 n = Nat.log 2 n :=
  log2fuel_eq_log n n (Nat.le_refl n)

theorem nlog2_pow (s : Nat) : nlog2 (2 ^ s) = s := by
  rw [nlog2_eq_log]
  exact Nat.log_pow (by norm_num) s

/-- Any nonzero rational `a / a` rounds to the binary64 value `1.0`
(significand `2 ^ 52`, exponent `-52`). -/
theorem floatOfRat_self (a : Nat) (ha : a ≠ 0) :
    floatOfRat a a = (2 ^ 52, (-52 : Int)) := by
  have ha2 : ¬(a = 0 ∨ a = 0) := by simp [ha]
  have hpos : 0 < a := Nat.pos_of_ne_zero ha
  unfold floatOfRat
  rw [if_neg ha2]
  dsimp only []
  have hq : a * 2 ^ (54 + nlog2 a) / a = 2 ^ (54 + nlog2 a) :=
    Nat.mul_div_cancel_left _ hpos
  rw [hq, nlog2_pow]
  have hfac : a * 2 ^ (54 + nlog2 a) = a * 2 ^ (54 + nlog2 a - 52) * 2 ^ 52 := by
    rw [Nat.mul_assoc, ← Nat.pow_add]
    congr 2
    omega
  have hd : 0 < a * 2 ^ (54 + nlog2 a - 52) :=
    Nat.mul_pos hpos (Nat.pos_pow_of_pos _ (by norm_num))
  have hm0 : a * 2 ^ (54 + nlog2 a) / (a * 2 ^ (54 + nlog2 a - 52)) = 2 ^ 52 := by
    rw [hfac]
    exact Nat.mul_div_cancel_left _ hd
  have hr : a * 2 ^ (54 + nlog2 a) % (a * 2 ^ (54 + nlog2 a - 52)) = 0 := by
    rw [hfac]
    exact Nat.mul_mod_right _ _
  rw [hm0, hr]
  have hcond : ¬(a * 2 ^ (54 + nlog2 a - 52) < 2 * 0
      ∨ (2 * 0 = a * 2 ^ (54 + nlog2 a - 52) ∧ 2 ^ 52 % 2 = 1)) := by
    rintro (h | ⟨h, _⟩)
    · simp at h
    · simp at h
      exact absurd h ha
  rw [if_neg hcond]
  rw [if_neg (by decide : ¬((2 : Nat) ^ 52 = 2 ^ 53))]
  have hexp : ((54 + nlog2 a - 52 : Nat) : Int) - ((54 + nlog2 a : Nat) : Int) = -52 := by
    have h52 : 52 ≤ 54 + nlog2 a := by omega
    push_cast [Nat.cast_sub h52]
    ring
  simp only [Prod.mk.injEq]
  exact ⟨trivial, hexp⟩

set_option maxRecDepth 20000 in
/-- A fully completed job reports 100 percent: the binary64 computation of
`int((a / a) * 100)` is exact. -/
theorem pyPercent_total_self (a : Nat) (ha : a ≠ 0) : pyPercent a a = 100 := by
  unfold pyPercent
  rw [if_neg ha, floatOfRat_self a ha]
  rfl

theorem pyPercent_zero (total : Nat) (h0 : total ≠ 0) : pyPercent 0 total = 0 := by
  unfold pyPercent
  rw [if_neg h0]
  have h1 : floatOfRat 0 total = (0, 0) := by
    unfold floatOfRat
    rw [if_pos (Or.inl rfl)]
  rw [h1]
  rfl

/-- C7 amended: the percent reported for a registered job is the binary64
evaluation of `int((done / total) * 100)` (which can fall one below the
exact integer floor, e.g. 28 instead of 29 at done 29 of 100); it is 100
when `total = 0`, 100 when `done = total`, and 0 when `done = 0 < total`. -/
theorem percent_formula (pd : ProgressMap) (cid : String) (p : Progress)
    (h : pdLookup pd cid = some p) :
    get_progress pd cid = Except.ok (p.done, p.total, pyPercent p.done p.total)
      ∧ (p.total = 0 → pyPercent p.done p.total = 100)
      ∧ (p.done = p.total → pyPercent p.done p.total = 100)
      ∧ (p.done = 0 → p.total ≠ 0 → pyPercent p.done p.total = 0) := by
  refine ⟨by simp [get_progress, h], fun h0 => by simp [pyPercent, h0],
    fun he => ?_, fun hd h0 => ?_⟩
  · by_cases h0 : p.total = 0
    · simp [pyPercent, he, h0]
    · rw [he]
      exact pyPercent_total_self p.total h0
  · rw [hd]
    exact pyPercent_zero p.total h0

set_option maxRecDepth 20000 in
/-- Witness for C7's amended statement at a completed job of 4 chunks. -/
theorem percent_formula_witness :
    get_progress [("j", ⟨4, 4⟩)] "j" = Except.ok (4, 4, pyPercent 4 4)
      ∧ ((4 : Nat) = 0 → pyPercent 4 4 = 100)
      ∧ ((4 : Nat) = (4 : Nat) → pyPercent 4 4 = 100)
      ∧ ((4 : Nat) = 0 → (4 : Nat) ≠ 0 → pyPercent 4 4 = 0) :=
  percent_formula [("j", ⟨4, 4⟩)] "j" ⟨4, 4⟩ rfl

instance instDecEqExcept {e a : Type} [DecidableEq e] [DecidableEq a] :
    DecidableEq (Except e a)
  | Except.error x, Except.error y =>
    if h : x = y then isTrue (by rw [h]) else
      isFalse (fun hh => by injection hh with h2; exact h h2)
  | Except.ok x, Except.ok y =>
    if h : x = y then isTrue (by rw [h]) else
      isFalse (fun hh => by injection hh with h2; exact h h2)
  | Except.error _, Except.ok _ => isFalse (fun hh => by injection hh)
  | Except.ok _, Except.error _ => isFalse (fun hh => by injection hh)

theorem firstError_of_mem (l : List (Except TtsError (Nat × List Nat))) (e : TtsError)
    (h : Except.error e ∈ l) : ∃ e2, firstError l = some e2 := by
  induction l with
  | nil => simp at h
  | cons x rest ih =>
    cases x with
    | error f => exact ⟨f, rfl⟩
    | ok v =>
      rcases List.mem_cons.mp h with h1 | h2
      · exact absurd h1 (by simp)
      · obtain ⟨e2, he2⟩ := ih h2
        exact ⟨e2, by simp [firstError, he2]⟩

/-- C9: if any chunk of a job fails irrecoverably, the whole job fails: the
result is a synthesis error, the merge step is never invoked, and no
artifact is produced. -/
theorem job_all_or_nothing (backend : Nat → Nat → Attempt) (raw : List Char)
    (cid : String) (pd : ProgressMap) (e : TtsError)
    (hne : trimCl raw ≠ [])
    (hfail : Except.error e ∈ (runChunks backend cid 0 (split_text (trimCl raw))
        (pdSet pd cid ⟨0, (split_text (trimCl raw)).length⟩)).results) :
    (∃ e2, (generate_audio backend raw cid pd).result
        = Except.error (GenError.synthesis e2))
      ∧ (generate_audio backend raw cid pd).mergeCalls = 0 := by
  obtain ⟨e2, he2⟩ := firstError_of_mem _ e hfail
  unfold generate_audio
  rw [if_neg hne]
  dsimp only []
  rw [he2]
  exact ⟨⟨e2, rfl⟩, rfl⟩

set_option maxRecDepth 20000 in
/-- Witness for C9: a two-word job whose only chunk keeps raising. -/
theorem job_all_or_nothing_witness :
    (trimCl "hi".data ≠ []
      ∧ Except.error (TtsError.chunkFailed 1 "boom")
          ∈ (runChunks (fun _ _ => Attempt.exn "boom") "j" 0
              (split_text (trimCl "hi".data))
              (pdSet [] "j" ⟨0, (split_text (trimCl "hi".data)).length⟩)).results)
    ∧ (∃ e2, (generate_audio (fun _ _ => Attempt.exn "boom") "hi".data "j" []).result
        = Except.error (GenError.synthesis e2))
    ∧ (generate_audio (fun _ _ => Attempt.exn "boom") "hi".data "j" []).mergeCalls = 0 :=
  ⟨⟨by decide, by decide⟩,
    job_all_or_nothing (fun _ _ => Attempt.exn "boom") "hi".data "j" []
      (TtsError.chunkFailed 1 "boom") (by decide) (by decide)⟩

theorem foldl_preserves {a b : Type} (step : b → a → b) (P : b → Prop) :
    ∀ (l : List a) (init : b), P init →
      (∀ st x, x ∈ l → P st → P (step st x)) → P (l.foldl step init) := by
  intro l
  induction l with
  | nil =>
    intro init h _
    exact h
  | cons x l ih =>
    intro init h hstep
    rw [List.foldl_cons]
    exact ih (step init x) (hstep init x (by simp) h)
      (fun st x2 hx2 hb => hstep st x2 (by simp [hx2]) hb)

theorem pushChunk_trimmed (chunks : List (List Char)) (s : List Char)
    (hP : ∀ x ∈ chunks, trimCl x = x) :
    ∀ x ∈ pushChunk chunks s, trimCl x = x := by
  unfold pushChunk
  split_ifs with h
  · exact hP
  · intro x hx
    rcases List.mem_append.mp hx with h1 | h2
    · exact hP x h1
    · rw [List.mem_singleton.mp h2]
      exact trimCl_idem s

theorem sentStep_trimmed (max_length : Nat) (acc : List (List Char) × List Char)
    (s : List Char) (hP : ∀ x ∈ acc.1, trimCl x = x) :
    ∀ x ∈ (sentStep max_length acc s).1, trimCl x = x := by
  unfold sentStep
  split_ifs with h
  · exact hP
  · intro x hx
    dsimp only [] at hx
    rcases List.mem_append.mp hx with h1 | h2
    · exact hP x h1
    · rw [List.mem_singleton.mp h2]
      exact trimCl_idem acc.2

theorem paraStep_trimmed (max_length : Nat) (acc : List (List Char) × List Char)
    (para : List Char) (hP : ∀ x ∈ acc.1, trimCl x = x) :
    ∀ x ∈ (paraStep max_length acc para).1, trimCl x = x := by
  unfold paraStep
  split_ifs with h1 h2
  · exact hP
  · intro x hx
    dsimp only [] at hx
    exact pushChunk_trimmed _ _
      (foldl_preserves (sentStep max_length) (fun st => ∀ y ∈ st.1, trimCl y = y)
        (splitSep '.' [' '] para) (pushChunk acc.1 acc.2, [])
        (pushChunk_trimmed acc.1 acc.2 hP)
        (fun st x2 _ hb => sentStep_trimmed max_length st x2 hb)) x hx
  · intro x hx
    dsimp only [] at hx
    rcases List.mem_append.mp hx with h4 | h5
    · exact pushChunk_trimmed acc.1 acc.2 hP x h4
    · rw [List.mem_singleton.mp h5]
      exact trimCl_idem para

/-- C10 amended: every chunk produced by `split_text` carries no leading or
trailing whitespace (every chunk is the `strip` of something); chunks are
not guaranteed non-empty. -/
theorem chunks_trimmed (text : List Char) (max_length : Nat) (c : List Char)
    (hc : c ∈ split_text text max_length) : trimCl c = c := by
  unfold split_text at hc
  dsimp only [] at hc
  exact pushChunk_trimmed _ _
    (foldl_preserves (paraStep max_length) (fun st => ∀ y ∈ st.1, trimCl y = y)
      (splitSep '\n' ['\n'] text) ([], []) (by simp)
      (fun st x _ hb => paraStep_trimmed max_length st x hb)) c hc

/-- Witness for C10's amended statement. -/
theorem chunks_trimmed_witness : trimCl "hello".data = "hello".data :=
  chunks_trimmed "hello".data 10 "hello".data (by decide)

/-- Counterexample to C10: on the 7-character single-sentence paragraph
`"abcdefg"` with `max_length = 5`, the sentence fallback emits the empty
string as its first chunk. -/
theorem chunk_not_nonempty :
    [] ∈ split_text "abcdefg".data 5
      ∧ split_text "abcdefg".data 5 = [[], "abcdefg.".data] := by
  constructor
  · decide
  · decide

theorem mem_pushChunk (chunks : List (List Char)) (s x : List Char)
    (hx : x ∈ pushChunk chunks s) : x ∈ chunks ∨ x = trimCl s := by
  unfold pushChunk at hx
  split_ifs at hx with h
  · exact Or.inl hx
  · rcases List.mem_append.mp hx with h1 | h2
    · exact Or.inl h1
    · exact Or.inr (List.mem_singleton.mp h2)

/-- A chunk emitted by the sentence fallback: the strip of a sentence piece
of an over-long paragraph together with its re-appended `". "` separator. -/
def oversizeSentChunk (text : List Char) (max_length : Nat) (c : List Char) : Prop :=
  ∃ para, para ∈ splitSep '\n' ['\n'] text ∧ max_length < para.length
    ∧ ∃ s, s ∈ splitSep '.' [' '] para ∧ c = trimCl (s ++ ['.', ' '])

theorem sentStep_len (text : List Char) (max_length : Nat) (para : List Char)
    (hpara : para ∈ splitSep '\n' ['\n'] text) (hbig : max_length < para.length)
    (acc : List (List Char) × List Char) (s : List Char)
    (hs : s ∈ splitSep '.' [' '] para)
    (hQ : (∀ x ∈ acc.1, x.length ≤ max_length ∨ oversizeSentChunk text max_length x)
      ∧ (acc.2.length ≤ max_length
          ∨ ∃ s2, s2 ∈ splitSep '.' [' '] para ∧ acc.2 = s2 ++ ['.', ' '])) :
    (∀ x ∈ (sentStep max_length acc s).1,
        x.length ≤ max_length ∨ oversizeSentChunk text max_length x)
      ∧ ((sentStep max_length acc s).2.length ≤ max_length
          ∨ ∃ s2, s2 ∈ splitSep '.' [' '] para
              ∧ (sentStep max_length acc s).2 = s2 ++ ['.', ' ']) := by
  unfold sentStep
  split_ifs with h
  · refine ⟨hQ.1, Or.inl ?_⟩
    dsimp only []
    have hlen : (acc.2 ++ s ++ ['.', ' ']).length = acc.2.length + s.length + 2 := by
      simp
      omega
    omega
  · constructor
    · intro x hx
      dsimp only [] at hx
      rcases List.mem_append.mp hx with h1 | h2
      · exact hQ.1 x h1
      · rw [List.mem_singleton.mp h2]
        rcases hQ.2 with hlen | ⟨s2, hs2, he⟩
        · exact Or.inl (le_trans (trimCl_length_le acc.2) hlen)
        · exact Or.inr ⟨para, hpara, hbig, s2, hs2, by rw [he]⟩
    · exact Or.inr ⟨s, hs, rfl⟩

theorem paraStep_len (text : List Char) (max_length : Nat)
    (acc : List (List Char) × List Char) (para : List Char)
    (hpara : para ∈ splitSep '\n' ['\n'] text)
    (hP : (∀ x ∈ acc.1, x.length ≤ max_length ∨ oversizeSentChunk text max_length x)
      ∧ acc.2.length ≤ max_length) :
    (∀ x ∈ (paraStep max_length acc para).1,
        x.length ≤ max_length ∨ oversizeSentChunk text max_length x)
      ∧ (paraStep max_length acc para).2.length ≤ max_length := by
  have hpush : ∀ x ∈ pushChunk acc.1 acc.2,
      x.length ≤ max_length ∨ oversizeSentChunk text max_length x := by
    intro x hx
    rcases mem_pushChunk acc.1 acc.2 x hx with h1 | h2
    · exact hP.1 x h1
    · rw [h2]
      exact Or.inl (le_trans (trimCl_length_le acc.2) hP.2)
  unfold paraStep
  split_ifs with h1 h2
  · refine ⟨hP.1, ?_⟩
    dsimp only []
    have hlen : (acc.2 ++ para ++ ['\n', '\n']).length
        = acc.2.length + para.length + 2 := by
      simp
      omega
    omega
  · dsimp only []
    have hfold := foldl_preserves (sentStep max_length)
      (fun st => (∀ x ∈ st.1, x.length ≤ max_length ∨ oversizeSentChunk text max_length x)
        ∧ (st.2.length ≤ max_length
            ∨ ∃ s2, s2 ∈ splitSep '.' [' '] para ∧ st.2 = s2 ++ ['.', ' ']))
      (splitSep '.' [' '] para) (pushChunk acc.1 acc.2, [])
      ⟨hpush, Or.inl (Nat.zero_le _)⟩
      (fun st x hx hst => sentStep_len text max_length para hpara h2 st x hx hst)
    refine ⟨?_, Nat.zero_le _⟩
    intro x hx
    rcases mem_pushChunk _ _ x hx with hm | hm
    · exact hfold.1 x hm
    · rw [hm]
      rcases hfold.2 with hlen | ⟨s2, hs2, he⟩
      · exact Or.inl (le_trans (trimCl_length_le _) hlen)
      · exact Or.inr ⟨para, hpara, h2, s2, hs2, by rw [he]⟩
  · refine ⟨?_, Nat.zero_le _⟩
    intro x hx
    dsimp only [] at hx
    rcases List.mem_append.mp hx with h4 | h5
    · exact hpush x h4
    · rw [List.mem_singleton.mp h5]
      exact Or.inl (le_trans (trimCl_length_le para) (by omega))

/-- C2: every chunk produced by `split_text` has length at most
`max_length`, except chunks emitted whole by the sentence fallback: those
come from a paragraph longer than `max_length` and are the strip of a
single sentence piece `s` (plus the re-appended `". "` separator) with
`max_length ≤ s.length`, i.e. the source unit itself exceeds the limit. -/
theorem chunk_length_invariant (text : List Char) (max_length : Nat) (c : List Char)
    (hc : c ∈ split_text text max_length) :
    c.length ≤ max_length
      ∨ ∃ para, para ∈ splitSep '\n' ['\n'] text ∧ max_length < para.length
          ∧ ∃ s, s ∈ splitSep '.' [' '] para ∧ c = trimCl (s ++ ['.', ' '])
            ∧ max_length ≤ s.length := by
  unfold split_text at hc
  dsimp only [] at hc
  have hfold := foldl_preserves (paraStep max_length)
    (fun st => (∀ x ∈ st.1, x.length ≤ max_length ∨ oversizeSentChunk text max_length x)
      ∧ st.2.length ≤ max_length)
    (splitSep '\n' ['\n'] text) ([], [])
    ⟨by simp, Nat.zero_le _⟩
    (fun st x hx hst => paraStep_len text max_length st x hx hst)
  have hok : c.length ≤ max_length ∨ oversizeSentChunk text max_length c := by
    rcases mem_pushChunk _ _ c hc with hm | hm
    · exact hfold.1 c hm
    · rw [hm]
      exact Or.inl (le_trans (trimCl_length_le _) hfold.2)
  rcases hok with hlen | ⟨para, hpara, hbig, s, hs, he⟩
  · exact Or.inl hlen
  · by_cases hlen : c.length ≤ max_length
    · exact Or.inl hlen
    · refine Or.inr ⟨para, hpara, hbig, s, hs, he, ?_⟩
      have hdot : trimCl (s ++ ['.', ' ']) = trimCl (s ++ ['.']) := by
        have happ : s ++ ['.', ' '] = (s ++ ['.']) ++ [' '] := by simp
        rw [happ, trimCl_append_ws _ ' ' (by decide)]
      have hle : c.length ≤ s.length + 1 := by
        rw [he, hdot]
        have := trimCl_length_le (s ++ ['.'])
        simpa using this
      omega

/-- Witness for C2 on a short document whose single chunk fits. -/
theorem chunk_length_invariant_witness :
    ("hello".data.length ≤ 10
      ∨ ∃ para, para ∈ splitSep '\n' ['\n'] "hello".data ∧ 10 < para.length
          ∧ ∃ s, s ∈ splitSep '.' [' '] para
            ∧ "hello".data = trimCl (s ++ ['.', ' ']) ∧ 10 ≤ s.length) :=
  chunk_length_invariant "hello".data 10 "hello".data (by decide)

/-- Characters that are neither whitespace nor part of a packing separator
(the paragraph separator `"\n\n"` and the sentence separator `". "` consist
of whitespace and the period). -/
def keepC (c : Char) : Bool := !c.isWhitespace && !(c == '.')

theorem filter_keepC_dropWhile_ws (s : List Char) :
    (s.dropWhile Char.isWhitespace).filter keepC = s.filter keepC := by
  induction s with
  | nil => rfl
  | cons x xs ih =>
    by_cases hx : Char.isWhitespace x
    · have hk : keepC x = false := by simp [keepC, hx]
      rw [List.dropWhile_cons, if_pos hx, ih, List.filter_cons, if_neg (by simp [hk])]
    · rw [List.dropWhile_cons, if_neg hx]

theorem filter_keepC_trimCl (s : List Char) :
    (trimCl s).filter keepC = s.filter keepC := by
  unfold trimCl
  rw [List.filter_reverse, filter_keepC_dropWhile_ws, List.filter_reverse,
    List.reverse_reverse, filter_keepC_dropWhile_ws]

theorem filter_keepC_eq_nil_of_trim (s : List Char) (h : trimCl s = []) :
    s.filter keepC = [] := by
  rw [← filter_keepC_trimCl, h]
  rfl

theorem joinSep_filter (sep : List Char) (hsep : sep.filter keepC = []) :
    ∀ l : List (List Char),
      (joinSep sep l).filter keepC = (l.map (List.filter keepC)).flatten := by
  intro l
  induction l with
  | nil => rfl
  | cons x xs ih =>
    cases xs with
    | nil => simp [joinSep]
    | cons y ys =>
      have hj : joinSep sep (x :: y :: ys) = x ++ sep ++ joinSep sep (y :: ys) := rfl
      rw [hj]
      simp only [List.filter_append, hsep, ih, List.map_cons, List.flatten_cons]
      simp

theorem splitSep_filter (a : Char) (tl : List Char) (text : List Char)
    (hsep : (a :: tl).filter keepC = []) :
    ((splitSep a tl text).map (List.filter keepC)).flatten = text.filter keepC := by
  conv_rhs => rw [← joinSep_splitSep a tl text]
  rw [joinSep_filter _ hsep]

theorem pushChunk_filter (chunks : List (List Char)) (s : List Char) :
    ((pushChunk chunks s).flatten).filter keepC
      = (chunks.flatten).filter keepC ++ s.filter keepC := by
  unfold pushChunk
  split_ifs with h
  · rw [filter_keepC_eq_nil_of_trim s h]
    simp
  · rw [List.flatten_append]
    simp [List.filter_append, filter_keepC_trimCl]

theorem sentStep_content (max_length : Nat) (acc : List (List Char) × List Char)
    (s : List Char) :
    ((sentStep max_length acc s).1.flatten ++ (sentStep max_length acc s).2).filter keepC
      = ((acc.1.flatten ++ acc.2).filter keepC) ++ s.filter keepC := by
  unfold sentStep
  have hsep : (['.', ' '] : List Char).filter keepC = [] := by decide
  split_ifs with h
  · dsimp only []
    simp [List.filter_append, hsep]
  · dsimp only []
    rw [List.flatten_append]
    simp [List.filter_append, hsep, filter_keepC_trimCl]

theorem sentFold_content (max_length : Nat) :
    ∀ (sents : List (List Char)) (acc : List (List Char) × List Char),
      (((sents.foldl (sentStep max_length) acc).1.flatten
          ++ (sents.foldl (sentStep max_length) acc).2).filter keepC)
        = ((acc.1.flatten ++ acc.2).filter keepC)
            ++ (sents.map (List.filter keepC)).flatten := by
  intro sents
  induction sents with
  | nil => simp
  | cons s rest ih =>
    intro acc
    rw [List.foldl_cons, ih (sentStep max_length acc s), sentStep_content]
    simp

theorem paraStep_content (max_length : Nat) (acc : List (List Char) × List Char)
    (para : List Char) :
    ((paraStep max_length acc para).1.flatten ++ (paraStep max_length acc para).2).filter keepC
      = ((acc.1.flatten ++ acc.2).filter keepC) ++ para.filter keepC := by
  have hsepn : (['\n', '\n'] : List Char).filter keepC = [] := by decide
  have hpush : ((pushChunk acc.1 acc.2).flatten ++ ([] : List Char)).filter keepC
      = (acc.1.flatten ++ acc.2).filter keepC := by
    rw [List.append_nil, pushChunk_filter]
    simp [List.filter_append]
  unfold paraStep
  split_ifs with h1 h2
  · dsimp only []
    simp [List.filter_append, hsepn]
  · dsimp only []
    rw [List.append_nil, pushChunk_filter]
    have hfold := sentFold_content max_length (splitSep '.' [' '] para)
      (pushChunk acc.1 acc.2, [])
    dsimp only [] at hfold
    rw [List.append_nil, List.filter_append] at hfold
    rw [hfold, pushChunk_filter]
    rw [splitSep_filter '.' [' '] para (by decide)]
    simp [List.filter_append]
  · dsimp only []
    rw [List.append_nil, List.flatten_append, List.flatten_cons, List.flatten_nil,
      List.append_nil]
    rw [List.filter_append, pushChunk_filter, filter_keepC_trimCl]
    simp [List.filter_append]

theorem paraFold_content (max_length : Nat) :
    ∀ (paras : List (List Char)) (acc : List (List Char) × List Char),
      (((paras.foldl (paraStep max_length) acc).1.flatten
          ++ (paras.foldl (paraStep max_length) acc).2).filter keepC)
        = ((acc.1.flatten ++ acc.2).filter keepC)
            ++ (paras.map (List.filter keepC)).flatten := by
  intro paras
  induction paras with
  | nil => simp
  | cons p rest ih =>
    intro acc
    rw [List.foldl_cons, ih (paraStep max_length acc p), paraStep_content]
    simp

/-- C3: concatenating all chunks of `split_text` in order reproduces the
document up to whitespace normalization and the characters of the packing
separators (`"\n\n"` and `". "`, whose non-whitespace character is the
period, which the sentence fallback re-appends): filtering out whitespace
and periods, the concatenation equals the original text; and the chunk
positions of the list enumerated by the dispatcher form the dense sequence
`0..N-1` in document order. -/
theorem chunk_concat_reproduces_text (text : List Char) (max_length : Nat) :
    ((split_text text max_length).flatten).filter keepC = text.filter keepC
      ∧ ((split_text text max_length).enum.map Prod.fst)
          = List.range (split_text text max_length).length := by
  constructor
  · unfold split_text
    dsimp only []
    rw [pushChunk_filter]
    have hfold := paraFold_content max_length (splitSep '\n' ['\n'] text) ([], [])
    dsimp only [] at hfold
    rw [List.append_nil] at hfold
    have hflat : ((((splitSep '\n' ['\n'] text).foldl (paraStep max_length)
        ([], [])).1.flatten).filter keepC)
        ++ (((splitSep '\n' ['\n'] text).foldl (paraStep max_length) ([], [])).2.filter keepC)
        = (text.filter keepC) := by
      rw [← List.filter_append, hfold]
      rw [splitSep_filter '\n' ['\n'] text (by decide)]
      rfl
    rw [← hflat]
  · exact List.enum_map_fst _

theorem pdLookup_pdSet (pd : ProgressMap) (k : String) (v : Progress) :
    pdLookup (pdSet pd k v) k = some v := by
  induction pd with
  | nil => simp [pdSet, pdLookup]
  | cons e rest ih =>
    by_cases h : e.1 = k
    · simp [pdSet, pdLookup, h]
    · simp [pdSet, pdLookup, h, ih]

theorem pdLookup_pdInc (pd : ProgressMap) (k : String) (p : Progress)
    (h : pdLookup pd k = some p) :
    pdLookup (pdInc pd k) k = some ⟨p.done + 1, p.total⟩ := by
  induction pd with
  | nil => simp [pdLookup] at h
  | cons e rest ih =>
    by_cases he : e.1 = k
    · rw [pdLookup, if_pos he] at h
      injection h with h2
      cases e with
      | mk k2 v2 =>
        have h3 : v2 = p := h2
        simp only [pdInc]
        rw [if_pos he]
        rw [pdLookup, if_pos he, h3]
    · rw [pdLookup, if_neg he] at h
      cases e with
      | mk k2 v2 =>
        simp only [pdInc]
        rw [if_neg he, pdLookup, if_neg he]
        exact ih h

theorem pdLookup_pdFinish (pd : ProgressMap) (k : String) (p : Progress)
    (h : pdLookup pd k = some p) :
    pdLookup (pdFinish pd k) k = some ⟨p.total, p.total⟩ := by
  induction pd with
  | nil => simp [pdLookup] at h
  | cons e rest ih =>
    by_cases he : e.1 = k
    · rw [pdLookup, if_pos he] at h
      injection h with h2
      cases e with
      | mk k2 v2 =>
        have h3 : v2 = p := h2
        simp only [pdFinish]
        rw [if_pos he]
        rw [pdLookup, if_pos he, h3]
    · rw [pdLookup, if_neg he] at h
      cases e with
      | mk k2 v2 =>
        simp only [pdFinish]
        rw [if_neg he, pdLookup, if_neg he]
        exact ih h

/-- Whether the retry loop starting at `attempt` with `fuel` iterations
left reaches a 200 response; mirrors the branch structure of `tts_go` but
is independent of the threaded progress dictionary. -/
def ttsSucceeds (backend : Nat → Attempt) (retries : Nat) : Nat → Nat → Bool
  | _, 0 => false
  | attempt, fuel + 1 =>
    match backend attempt with
    | Attempt.resp status _ _ =>
      if status ≠ 200 then
        if attempt = retries then false
        else ttsSucceeds backend retries (attempt + 1) fuel
      else true
    | Attempt.exn _ =>
      if attempt = retries then false
      else ttsSucceeds backend retries (attempt + 1) fuel

/-- Whether one chunk's `tts_request` with the default budget succeeds. -/
def ttsOk (backend : Nat → Attempt) : Bool := ttsSucceeds backend 3 1 3

theorem tts_go_effect (backend : Nat → Attempt) (chunk_id : Nat) (cid : String)
    (retries : Nat) :
    ∀ (fuel attempt : Nat) (pd : ProgressMap),
      ((tts_go backend chunk_id cid retries attempt fuel pd).pd
        = if ttsSucceeds backend retries attempt fuel then pdInc pd cid else pd)
      ∧ ((∃ v, (tts_go backend chunk_id cid retries attempt fuel pd).result
            = some (Except.ok v))
          ↔ ttsSucceeds backend retries attempt fuel = true) := by
  intro fuel
  induction fuel with
  | zero =>
    intro attempt pd
    simp [tts_go, ttsSucceeds]
  | succ fuel ih =>
    intro attempt pd
    cases hb : backend attempt with
    | resp status data err =>
      by_cases hs : status ≠ 200
      · by_cases hr : attempt = retries
        · subst hr
          simp [tts_go, ttsSucceeds, hb, hs]
        · have := ih (attempt + 1) pd
          simp only [tts_go, ttsSucceeds, hb, if_pos hs, if_neg hr]
          exact this
      · simp [tts_go, ttsSucceeds, hb, hs]
    | exn msg =>
      by_cases hr : attempt = retries
      · subst hr
        simp [tts_go, ttsSucceeds, hb]
      · have := ih (attempt + 1) pd
        simp only [tts_go, ttsSucceeds, hb, if_neg hr]
        exact this

/-- Number of successfully synthesizing chunks among `n` consecutive chunks
starting at chunk index `i`. -/
def succCount (backend : Nat → Nat → Attempt) (i n : Nat) : Nat :=
  (List.range n).countP (fun t => ttsOk (backend (i + t)))

theorem succCount_head (backend : Nat → Nat → Attempt) (i n : Nat) :
    succCount backend i (n + 1)
      = (if ttsOk (backend i) then 1 else 0) + succCount backend (i + 1) n := by
  unfold succCount
  rw [List.range_succ_eq_map, List.countP_cons, List.countP_map]
  have hc : ((fun t => ttsOk (backend (i + t))) ∘ Nat.succ)
      = fun t => ttsOk (backend (i + 1 + t)) := by
    funext t
    simp only [Function.comp]
    have harg : i + Nat.succ t = i + 1 + t := by omega
    rw [harg]
  rw [hc]
  simp [Nat.add_comm]

theorem succCount_snoc (backend : Nat → Nat → Attempt) (i n : Nat) :
    succCount backend i (n + 1)
      = succCount backend i n + (if ttsOk (backend (i + n)) then 1 else 0) := by
  unfold succCount
  rw [List.range_succ, List.countP_append]
  simp [List.countP_cons]

theorem runChunks_entry (backend : Nat → Nat → Attempt) (cid : String) :
    ∀ (chunks : List (List Char)) (i : Nat) (pd : ProgressMap) (p : Progress),
      pdLookup pd cid = some p →
      pdLookup (runChunks backend cid i chunks pd).pd cid
        = some ⟨p.done + succCount backend i chunks.length, p.total⟩ := by
  intro chunks
  induction chunks with
  | nil =>
    intro i pd p h
    simpa [runChunks, succCount] using h
  | cons c rest ih =>
    intro i pd p h
    simp only [runChunks]
    simp only [List.length_cons]
    rw [succCount_head]
    have heff := (tts_go_effect (backend i) (i + 1) cid 3 3 1 pd).1
    cases hok : ttsOk (backend i) with
    | true =>
      have hts : ttsSucceeds (backend i) 3 1 3 = true := hok
      have hpd : (tts_request (backend i) (i + 1) cid pd).pd = pdInc pd cid := by
        unfold tts_request
        rw [heff, hts]
        rfl
      rw [hpd,
        ih (i + 1) (pdInc pd cid) ⟨p.done + 1, p.total⟩ (pdLookup_pdInc pd cid p h)]
      have harith : p.done + 1 + succCount backend (i + 1) rest.length
          = p.done + (1 + succCount backend (i + 1) rest.length) := by omega
      simp [harith]
    | false =>
      have hts : ttsSucceeds (backend i) 3 1 3 = false := hok
      have hpd : (tts_request (backend i) (i + 1) cid pd).pd = pd := by
        unfold tts_request
        rw [heff, hts]
        rfl
      rw [hpd, ih (i + 1) pd p h]
      simp

theorem runChunks_all_ok (backend : Nat → Nat → Attempt) (cid : String) :
    ∀ (chunks : List (List Char)) (i : Nat) (pd : ProgressMap),
      (∀ t, t < chunks.length → ttsOk (backend (i + t)) = true) →
      firstError (runChunks backend cid i chunks pd).results = none := by
  intro chunks
  induction chunks with
  | nil =>
    intro i pd _
    rfl
  | cons c rest ih =>
    intro i pd hall
    simp only [runChunks]
    have hok : ttsOk (backend i) = true := by
      have h0 := hall 0 (by simp)
      simpa using h0
    have hts : ttsSucceeds (backend i) 3 1 3 = true := hok
    obtain ⟨v, hv⟩ := ((tts_go_effect (backend i) (i + 1) cid 3 3 1 pd).2).mpr hts
    have hv2 : (tts_request (backend i) (i + 1) cid pd).result = some (Except.ok v) := hv
    rw [hv2]
    simp only [firstError]
    exact ih (i + 1) _ (fun t ht => by
      have h1 := hall (t + 1) (by simpa using Nat.succ_lt_succ ht)
      have harg : i + (t + 1) = i + 1 + t := by omega
      rw [harg] at h1
      exact h1)

/-- The `done` count of the job's progress entry after the first `k` chunk
tasks have completed (the remaining tasks still pending). -/
def doneAfter (backend : Nat → Nat → Attempt) (cid : String) (raw : List Char)
    (pd : ProgressMap) (k : Nat) : Nat :=
  match pdLookup (runChunks backend cid 0 ((split_text (trimCl raw)).take k)
      (pdSet pd cid ⟨0, (split_text (trimCl raw)).length⟩)).pd cid with
  | some p => p.done
  | none => 0

theorem doneAfter_eq (backend : Nat → Nat → Attempt) (cid : String) (raw : List Char)
    (pd : ProgressMap) (k : Nat) :
    doneAfter backend cid raw pd k
      = succCount backend 0 ((split_text (trimCl raw)).take k).length := by
  unfold doneAfter
  rw [runChunks_entry backend cid ((split_text (trimCl raw)).take k) 0
    (pdSet pd cid ⟨0, (split_text (trimCl raw)).length⟩)
    ⟨0, (split_text (trimCl raw)).length⟩
    (pdLookup_pdSet pd cid ⟨0, (split_text (trimCl raw)).length⟩)]
  simp

/-- C6: the tracked `done` count starts at 0 with `total` equal to the
number of chunks; completing chunk `k` increments it by exactly one when
that chunk's synthesis succeeds and by zero otherwise (never on
retry-internal attempts, whatever the retry pattern of `backend`); it is
non-decreasing and never exceeds `total`; when every chunk succeeds the job
returns an artifact and the entry ends at `done = total`; and querying
progress for an unregistered job id fails with the not-found error. -/
theorem progress_lifecycle (backend backend2 : Nat → Nat → Attempt) (cid : String)
    (raw : List Char) (pd : ProgressMap) (k : Nat) (pd2 : ProgressMap) (id2 : String)
    (hne : trimCl raw ≠ [])
    (hk : k < (split_text (trimCl raw)).length)
    (hall : ∀ i, i < (split_text (trimCl raw)).length → ttsOk (backend2 i) = true)
    (hq : pdLookup pd2 id2 = none) :
    pdLookup (pdSet pd cid ⟨0, (split_text (trimCl raw)).length⟩) cid
        = some ⟨0, (split_text (trimCl raw)).length⟩
      ∧ doneAfter backend cid raw pd 0 = 0
      ∧ doneAfter backend cid raw pd (k + 1)
          = doneAfter backend cid raw pd k + (if ttsOk (backend k) then 1 else 0)
      ∧ doneAfter backend cid raw pd k ≤ doneAfter backend cid raw pd (k + 1)
      ∧ doneAfter backend cid raw pd (k + 1) ≤ (split_text (trimCl raw)).length
      ∧ (∃ artifact, (generate_audio backend2 raw cid pd).result = Except.ok artifact)
      ∧ pdLookup (generate_audio backend2 raw cid pd).pd cid
          = some ⟨(split_text (trimCl raw)).length, (split_text (trimCl raw)).length⟩
      ∧ get_progress pd2 id2 = Except.error ProgressError.notFound := by
  have hlen1 : ((split_text (trimCl raw)).take (k + 1)).length = k + 1 := by
    rw [List.length_take]
    omega
  have hlen0 : ((split_text (trimCl raw)).take k).length = k := by
    rw [List.length_take]
    omega
  have hstep : doneAfter backend cid raw pd (k + 1)
      = doneAfter backend cid raw pd k + (if ttsOk (backend k) then 1 else 0) := by
    rw [doneAfter_eq, doneAfter_eq, hlen1, hlen0, succCount_snoc]
    simp
  have hfe : firstError (runChunks backend2 cid 0 (split_text (trimCl raw))
      (pdSet pd cid ⟨0, (split_text (trimCl raw)).length⟩)).results = none :=
    runChunks_all_ok backend2 cid (split_text (trimCl raw)) 0
      (pdSet pd cid ⟨0, (split_text (trimCl raw)).length⟩)
      (fun t ht => by simpa using hall t ht)
  have hgen : generate_audio backend2 raw cid pd
      = ⟨Except.ok (merged_artifact (collectOks (runChunks backend2 cid 0
            (split_text (trimCl raw))
            (pdSet pd cid ⟨0, (split_text (trimCl raw)).length⟩)).results)),
          pdFinish (runChunks backend2 cid 0 (split_text (trimCl raw))
            (pdSet pd cid ⟨0, (split_text (trimCl raw)).length⟩)).pd cid,
          (runChunks backend2 cid 0 (split_text (trimCl raw))
            (pdSet pd cid ⟨0, (split_text (trimCl raw)).length⟩)).attempts, 1⟩ := by
    unfold generate_audio
    rw [if_neg hne]
    dsimp only []
    rw [hfe]
  have hentry := runChunks_entry backend2 cid (split_text (trimCl raw)) 0
    (pdSet pd cid ⟨0, (split_text (trimCl raw)).length⟩)
    ⟨0, (split_text (trimCl raw)).length⟩
    (pdLookup_pdSet pd cid ⟨0, (split_text (trimCl raw)).length⟩)
  refine ⟨pdLookup_pdSet pd cid _, ?_, hstep, ?_, ?_, ?_, ?_, ?_⟩
  · rw [doneAfter_eq]
    simp [succCount]
  · rw [hstep]
    split_ifs <;> omega
  · rw [doneAfter_eq, hlen1]
    have hb := List.countP_le_length (fun t => ttsOk (backend (0 + t)))
      (l := List.range (k + 1))
    unfold succCount
    calc (List.range (k + 1)).countP (fun t => ttsOk (backend (0 + t)))
        ≤ (List.range (k + 1)).length := List.countP_le_length _
      _ = k + 1 := List.length_range (k + 1)
      _ ≤ (split_text (trimCl raw)).length := by omega
  · exact ⟨_, by rw [hgen]⟩
  · rw [hgen]
    exact pdLookup_pdFinish _ _ _ hentry
  · simp [get_progress, hq]

set_option maxRecDepth 20000 in
/-- Witness for C6 on a one-chunk job: an always-raising backend for the
increment conjuncts and an always-succeeding backend for the completion
conjuncts. -/
theorem progress_lifecycle_witness :
    pdLookup (pdSet [] "j" ⟨0, (split_text (trimCl "hi".data)).length⟩) "j"
        = some ⟨0, (split_text (trimCl "hi".data)).length⟩
      ∧ doneAfter (fun (_ : Nat) (_ : Nat) => Attempt.exn "x") "j" "hi".data [] 0 = 0
      ∧ doneAfter (fun (_ : Nat) (_ : Nat) => Attempt.exn "x") "j" "hi".data [] (0 + 1)
          = doneAfter (fun (_ : Nat) (_ : Nat) => Attempt.exn "x") "j" "hi".data [] 0
            + (if ttsOk ((fun (_ : Nat) (_ : Nat) => Attempt.exn "x") 0) then 1 else 0)
      ∧ doneAfter (fun (_ : Nat) (_ : Nat) => Attempt.exn "x") "j" "hi".data [] 0
          ≤ doneAfter (fun (_ : Nat) (_ : Nat) => Attempt.exn "x") "j" "hi".data [] (0 + 1)
      ∧ doneAfter (fun (_ : Nat) (_ : Nat) => Attempt.exn "x") "j" "hi".data [] (0 + 1)
          ≤ (split_text (trimCl "hi".data)).length
      ∧ (∃ artifact, (generate_audio (fun (_ : Nat) (_ : Nat) => Attempt.resp 200 [1] "")
          "hi".data "j" []).result = Except.ok artifact)
      ∧ pdLookup (generate_audio (fun (_ : Nat) (_ : Nat) => Attempt.resp 200 [1] "")
            "hi".data "j" []).pd "j"
          = some ⟨(split_text (trimCl "hi".data)).length,
              (split_text (trimCl "hi".data)).length⟩
      ∧ get_progress [] "nope" = Except.error ProgressError.notFound :=
  progress_lifecycle (fun (_ : Nat) (_ : Nat) => Attempt.exn "x")
    (fun (_ : Nat) (_ : Nat) => Attempt.resp 200 [1] "")
    "j" "hi".data [] 0 [] "nope" (by decide) (by decide) (fun i _ => rfl) rfl

theorem countP_middle (p : STask → Bool) (l r : List STask) (x : STask) :
    (l ++ x :: r).countP p
      = l.countP p + r.countP p + (if p x then 1 else 0) := by
  rw [List.countP_append, List.countP_cons, Nat.add_assoc]

theorem step_inv (s s2 : List STask) (hs : Step s s2)
    (hI : inFlight s ≤ 15 ∧ ∀ j2, jobAdmitted s j2 ≤ 5) :
    inFlight s2 ≤ 15 ∧ ∀ j2, jobAdmitted s2 j2 ≤ 5 := by
  cases hs with
  | acquireLocal l r j hguard =>
    refine ⟨?_, fun j2 => ?_⟩
    · have h1 := hI.1
      unfold inFlight at h1 ⊢
      rw [countP_middle] at h1 ⊢
      simp at h1 ⊢
      omega
    · have h2 := hI.2 j2
      unfold jobAdmitted at h2 ⊢
      rw [countP_middle] at h2 ⊢
      by_cases hj : j = j2
      · subst hj
        have hg := hguard
        unfold jobAdmitted at hg
        rw [countP_middle] at hg
        simp at h2 hg ⊢
        omega
      · simp [hj] at h2 ⊢
        omega
  | acquireGlobal l r j hguard =>
    refine ⟨?_, fun j2 => ?_⟩
    · have hg := hguard
      unfold inFlight at hg ⊢
      rw [countP_middle] at hg ⊢
      simp at hg ⊢
      omega
    · have h2 := hI.2 j2
      unfold jobAdmitted at h2 ⊢
      rw [countP_middle] at h2 ⊢
      by_cases hj : j = j2
      · subst hj
        simp at h2 ⊢
        omega
      · simp [hj] at h2 ⊢
        omega
  | retryRelease l r j =>
    refine ⟨?_, fun j2 => ?_⟩
    · have h1 := hI.1
      unfold inFlight at h1 ⊢
      rw [countP_middle] at h1 ⊢
      simp at h1 ⊢
      omega
    · have h2 := hI.2 j2
      unfold jobAdmitted at h2 ⊢
      rw [countP_middle] at h2 ⊢
      by_cases hj : j = j2
      · subst hj
        simp at h2 ⊢
        omega
      · simp [hj] at h2 ⊢
        omega
  | finishFromCall l r j =>
    refine ⟨?_, fun j2 => ?_⟩
    · have h1 := hI.1
      unfold inFlight at h1 ⊢
      rw [countP_middle] at h1 ⊢
      simp at h1 ⊢
      omega
    · have h2 := hI.2 j2
      unfold jobAdmitted at h2 ⊢
      rw [countP_middle] at h2 ⊢
      by_cases hj : j = j2
      · subst hj
        simp at h2 ⊢
        omega
      · simp [hj] at h2 ⊢
        omega
  | finishFromLocal l r j =>
    refine ⟨?_, fun j2 => ?_⟩
    · have h1 := hI.1
      unfold inFlight at h1 ⊢
      rw [countP_middle] at h1 ⊢
      simp at h1 ⊢
      omega
    · have h2 := hI.2 j2
      unfold jobAdmitted at h2 ⊢
      rw [countP_middle] at h2 ⊢
      by_cases hj : j = j2
      · subst hj
        simp at h2 ⊢
        omega
      · simp [hj] at h2 ⊢
        omega

/-- C8: in every state reachable by any interleaving of any number of
synthesis tasks of any number of jobs, all starting idle, the number of
backend calls in flight process-wide never exceeds the global cap 15 and
the number in flight for any single job never exceeds the per-job cap 5;
the step relation releases the held slots on every exit path. -/
theorem concurrency_bounds (init s : List STask) (j : Nat)
    (hinit : ∀ t ∈ init, t.phase = Phase.pending) (hr : Reachable init s) :
    inFlight s ≤ 15 ∧ jobInFlight s j ≤ 5 := by
  have hI : inFlight s ≤ 15 ∧ ∀ j2, jobAdmitted s j2 ≤ 5 := by
    induction hr with
    | refl =>
      constructor
      · unfold inFlight
        have hz : ∀ t ∈ init, ¬((t.phase == Phase.globalHeld) = true) := by
          intro t ht
          rw [hinit t ht]
          simp
        rw [List.countP_eq_zero.mpr hz]
        omega
      · intro j2
        unfold jobAdmitted
        have hz : ∀ t ∈ init, ¬((t.job == j2
            && (t.phase == Phase.localHeld || t.phase == Phase.globalHeld)) = true) := by
          intro t ht
          rw [hinit t ht]
          simp
        rw [List.countP_eq_zero.mpr hz]
        omega
    | step hr2 hs ih => exact step_inv _ _ hs ih
  refine ⟨hI.1, ?_⟩
  have hmono : jobInFlight s j ≤ jobAdmitted s j := by
    unfold jobInFlight jobAdmitted
    apply List.countP_mono_left
    intro x _ hx
    simp at hx ⊢
    exact ⟨hx.1, Or.inr hx.2⟩
  exact le_trans hmono (hI.2 j)

/-- Witness for C8 at the one-task initial pool. -/
theorem concurrency_bounds_witness :
    inFlight [⟨0, Phase.pending⟩] ≤ 15 ∧ jobInFlight [⟨0, Phase.pending⟩] 0 ≤ 5 :=
  concurrency_bounds [⟨0, Phase.pending⟩] [⟨0, Phase.pending⟩] 0
    (by
      intro t ht
      simp at ht
      rw [ht])
    Reachable.refl

end AudioGen
